import Mathlib

/-!
Verification of the session/stream management layer of the yt-dlp-mcp HTTP
server: the in-memory event store (`SimpleEventStore` in
`src/mcp/event-store.mts`), the per-session rate limiter (`checkRateLimit` in
`src/server-http.mts`), the session registry (`SessionManager` in
`src/http/session.mts`), the route handlers (`src/http/routes.mts`), and the
auth / error-response middleware (`src/http/middleware.mts`,
`src/http/errors.mts`).

JavaScript `Map` objects are embedded as association lists with `Map.get`,
`Map.set`, `Map.delete` semantics (insertion order preserved, keys unique once
built through `mapSet`).  Wall-clock readings (`Date.now()`) and random draws
(`Math.random().toString(36).substring(2, 10)`) are oracle inputs threaded
explicitly.  Machine integers are `Nat`/`Int`; JavaScript string falsiness
(`undefined` or `""`) is `optTruthy`.
-/

set_option maxRecDepth 8000

namespace YtDlp

/-! ### Association-list model of a JavaScript `Map` -/

/-- Model of `Map.get k`: first binding of `k`, if any. -/
def mapGet {α : Type} : List (String × α) → String → Option α
  | [], _ => none
  | (k, v) :: rest, key => if k = key then some v else mapGet rest key

/-- Model of `Map.set k v`: replace the binding in place, else append at the end. -/
def mapSet {α : Type} : List (String × α) → String → α → List (String × α)
  | [], key, v => [(key, v)]
  | (k, w) :: rest, key, v =>
    if k = key then (key, v) :: rest else (k, w) :: mapSet rest key v

/-- Model of `Map.delete k`: remove the binding of `k` (keys are unique in a `Map`). -/
def mapDelete {α : Type} : List (String × α) → String → List (String × α)
  | [], _ => []
  | (k, v) :: rest, key => if k = key then rest else (k, v) :: mapDelete rest key

/-- JavaScript truthiness of an optional string header / config value:
`undefined` and `""` are falsy. -/
def optTruthy : Option String → Bool
  | none => false
  | some s => s != ""

/-! ### `SimpleEventStore` (src/mcp/event-store.mts) -/

/-- Constant `MAX_EVENTS_PER_SESSION` from src/mcp/event-store.mts. -/
def MAX_EVENTS_PER_SESSION : Nat := 1000

/-- One element of a stream's event array: `{ eventId, message }`.
The JSON-RPC message payload is abstracted to a `Nat`. -/
structure Ev where
  eventId : String
  message : Nat
deriving DecidableEq, Repr

/-- Model of `generateEventId`, the template literal joining the stream id,
`Date.now()` and a random base-36 suffix with underscores.
`time` is the oracle value of `Date.now()` (rendered in decimal, as in a JS
template literal) and `rand` the oracle value of the random suffix. -/
def generateEventId (streamId : String) (time : Nat) (rand : String) : String :=
  streamId ++ "_" ++ Nat.repr time ++ "_" ++ rand

/-- Model of `getStreamIdFromEventId`, i.e. `eventId.split('_')[0]`: the prefix of
`eventId` before its first `'_'` (the whole string when there is none). -/
def getStreamIdFromEventId (eventId : String) : String :=
  (eventId.data.takeWhile (fun c => c != '_')).asString

/-- The store's `events` map: `Map<StreamId, Array<{eventId; message}>>`. -/
abbrev Store := List (String × List Ev)

/-- The trim step of `storeEvent`: `if (len > MAX) splice(0, len - MAX)`. -/
def trimEvents (es : List Ev) : List Ev :=
  if es.length > MAX_EVENTS_PER_SESSION then
    es.drop (es.length - MAX_EVENTS_PER_SESSION)
  else es

/-- Model of `SimpleEventStore.storeEvent`: ensure the stream's array exists, push the
freshly minted event, trim to capacity, return the new event id. -/
def storeEvent (s : Store) (streamId : String) (time : Nat) (rand : String)
    (msg : Nat) : Store × String :=
  let s1 := if (mapGet s streamId).isSome then s else mapSet s streamId []
  let eventId := generateEventId streamId time rand
  let sessionEvents := (mapGet s1 streamId).getD []
  (mapSet s1 streamId (trimEvents (sessionEvents ++ [⟨eventId, msg⟩])), eventId)

/-- Model of `Array.prototype.findIndex` (`none` plays the role of `-1`). -/
def findIndex {α : Type} (p : α → Bool) : List α → Option Nat
  | [] => none
  | a :: rest => if p a then some 0 else (findIndex p rest).map (· + 1)

/-- Model of `SimpleEventStore.replayEventsAfter`: returns the list of events passed to
`send`, in order, together with the returned stream id. -/
def replayEventsAfter (s : Store) (lastEventId : String) : List Ev × String :=
  if lastEventId = "" then ([], "")
  else
    let streamId := getStreamIdFromEventId lastEventId
    if streamId = "" then ([], "")
    else
      match mapGet s streamId with
      | none => ([], "")
      | some streamEvents =>
        match findIndex (fun e => e.eventId == lastEventId) streamEvents with
        | some i => (streamEvents.drop (i + 1), streamId)
        | none => ([], streamId)

/-- Model of `SimpleEventStore.deleteSession`. -/
def deleteSession (s : Store) (streamId : String) : Store :=
  mapDelete s streamId

/-- Oracle input of one append: `(Date.now(), random suffix, message)`. -/
abbrev AppendInput := Nat × String × Nat

/-- The events a sequence of appends to `streamId` mints, in append order. -/
def mintedEvents (streamId : String) (inputs : List AppendInput) : List Ev :=
  inputs.map (fun i => ⟨generateEventId streamId i.1 i.2.1, i.2.2⟩)

/-- The event ids a sequence of appends to `streamId` mints, in append order. -/
def mintedIds (streamId : String) (inputs : List AppendInput) : List String :=
  (mintedEvents streamId inputs).map Ev.eventId

/-- One buffer transition of `storeEvent` on the affected stream's array. -/
def bufStep (buf : List Ev) (e : Ev) : List Ev :=
  trimEvents (buf ++ [e])

/-- Run a sequence of appends to a single stream through `storeEvent`,
collecting the returned event ids in order. -/
def runAppends (streamId : String) (s : Store) :
    List AppendInput → Store × List String
  | [] => (s, [])
  | i :: rest =>
    let r := storeEvent s streamId i.1 i.2.1 i.2.2
    let rr := runAppends streamId r.1 rest
    (rr.1, r.2 :: rr.2)

/-! ### Decimal rendering helper (specification of `Nat.repr`) -/

/-- Mathematical recursion computing the decimal digit characters of `n`,
used to reason about `Nat.repr` (which core computes with fuel). -/
def repChars (n : Nat) : List Char :=
  if _h : n < 10 then [Nat.digitChar n]
  else repChars (n / 10) ++ [Nat.digitChar (n % 10)]
decreasing_by
  exact Nat.div_lt_self (by omega) (by omega)

/-! ### Rate limiter (`checkRateLimit`, src/server-http.mts) -/

/-- The rate-limiting fields of a `TransportEntry`:
`{ requestCount, lastRequest }`. -/
structure RLEntry where
  requestCount : Nat
  lastRequest : Int
deriving DecidableEq, Repr

/-- Model of `checkRateLimit(sessionId)`, with the `transports.get(sessionId)` lookup
result passed in as `entry` and `Date.now()` as `now`; returns the boolean
verdict together with the entry's rate fields after the call
(`none` when no entry existed: nothing is recorded). `rateLimit` is the
configured `RATE_LIMIT` ceiling. -/
def checkRateLimit (rateLimit : Nat) (entry : Option RLEntry) (now : Int) :
    Bool × Option RLEntry :=
  match entry with
  | none => (true, none)
  | some e =>
    if now - e.lastRequest > 60000 then (true, some ⟨1, now⟩)
    else if e.requestCount ≥ rateLimit then (false, some e)
    else (true, some ⟨e.requestCount + 1, now⟩)

/-- Run `checkRateLimit` over a sequence of request times. -/
def rlRun (rateLimit : Nat) (entry : Option RLEntry) :
    List Int → List Bool × Option RLEntry
  | [] => ([], entry)
  | t :: ts =>
    let r := checkRateLimit rateLimit entry t
    let rest := rlRun rateLimit r.2 ts
    (r.1 :: rest.1, rest.2)

/-- Modelled from the spec: the fixed-window rate counter of §4.2 / §3
(`RateLimitCounter`), which the spec claims `checkRateLimit` implements:
"if no prior counter exists, allow and record `{1, now}`; if the window has
expired, reset and allow; otherwise increment and allow only while
`count <= ceiling`", the window being measured from `windowStartedAt`. -/
structure SpecRateCounter where
  count : Nat
  windowStartedAt : Int
deriving DecidableEq, Repr

/-- Modelled from the spec: one fixed-window `allow(sessionId)` decision of
§4.2, for comparison against the code's `checkRateLimit`. -/
def specFixedWindowAllow (ceiling : Nat) (c : Option SpecRateCounter)
    (now : Int) : Bool × Option SpecRateCounter :=
  match c with
  | none => (true, some ⟨1, now⟩)
  | some e =>
    if now - e.windowStartedAt > 60000 then (true, some ⟨1, now⟩)
    else (decide (e.count + 1 ≤ ceiling), some ⟨e.count + 1, e.windowStartedAt⟩)

/-- Modelled from the spec: run the §4.2 fixed-window limiter over a sequence
of request times. -/
def specRlRun (ceiling : Nat) (c : Option SpecRateCounter) :
    List Int → List Bool × Option SpecRateCounter
  | [] => ([], c)
  | t :: ts =>
    let r := specFixedWindowAllow ceiling c t
    let rest := specRlRun ceiling r.2 ts
    (r.1 :: rest.1, rest.2)

/-! ### Session registry (src/http/session.mts and src/http/routes.mts) -/

/-- A registry entry as stored by `handleMcpPost`'s `onsessioninitialized`
callback: `{ transport, server, eventStore, created, lastActivity }`.  The
transport handle is abstracted to its open/closed state and the per-session
`SimpleEventStore` to its `events` map. -/
structure MEntry where
  created : Int
  lastActivity : Int
  eventStore : Store
  transportOpen : Bool
deriving DecidableEq, Repr

/-- The `SessionManager`'s `transports` map. -/
abbrev Registry := List (String × MEntry)

/-- Modelled from the spec: `SessionManager.touch(sessionId)` — referenced by
`routes.mts` and exercised by `routes.test.ts` but absent from the provided
revision of `session.mts` — sets the entry's `lastActivityAt` to now (§4.3:
"`touch(sessionId)` (updates `lastActivityAt`)"). -/
def touch : Registry → String → Int → Registry
  | [], _, _ => []
  | (k, e) :: rest, sid, now =>
    if k = sid then (k, { e with lastActivity := now }) :: rest
    else (k, e) :: touch rest sid now

/-- The per-entry teardown the sweeper applies before removal: delete the
stream's event log, close the transport handle. -/
def teardownEntry (sid : String) (e : MEntry) : MEntry :=
  { e with eventStore := deleteSession e.eventStore sid, transportOpen := false }

/-- Modelled from the spec: `SessionManager.cleanupExpired` / `sweepExpired` of
§4.3 — the current `lastActivityAt`-based implementation is absent from the
provided revision of `session.mts` — "iterates all entries, and for each whose
`now - lastActivityAt > ttl`, it deletes the stream's event log and closes its
transport handle before removing it from the map".  Returns the surviving
registry together with the torn-down removed entries. -/
def sweepExpired (reg : Registry) (ttl now : Int) :
    Registry × List (String × MEntry) :=
  (reg.filter (fun kv => decide (now - kv.2.lastActivity ≤ ttl)),
   (reg.filter (fun kv => decide (now - kv.2.lastActivity > ttl))).map
     (fun kv => (kv.1, teardownEntry kv.1 kv.2)))

/-! ### Route handlers (src/http/routes.mts) -/

/-- The branch `handleMcpPost` takes on a request. -/
inductive PostOutcome
  | reuse
  | create
  | reject400
deriving DecidableEq, Repr

/-- The branch decision of `handleMcpPost`: an existing session is reused; a
missing/empty session id with an initialization payload creates a session;
everything else is answered with the 400 invalid-session error. -/
def postDecision (reg : Registry) (sessionId : Option String)
    (isInit : Bool) : PostOutcome :=
  let entry := if optTruthy sessionId then mapGet reg (sessionId.getD "") else none
  match entry with
  | some _ => .reuse
  | none => if !optTruthy sessionId && isInit then .create else .reject400

/-- Effect of `handleMcpPost` on the registry: reuse touches the entry, the
initialization path registers `(newSid, newEntry)` via `onsessioninitialized`,
and the reject path leaves the registry untouched. -/
def postStep (reg : Registry) (sessionId : Option String) (isInit : Bool)
    (newSid : String) (newEntry : MEntry) (now : Int) : PostOutcome × Registry :=
  match postDecision reg sessionId isInit with
  | .reuse => (.reuse, touch reg (sessionId.getD "") now)
  | .create => (.create, mapSet reg newSid newEntry)
  | .reject400 => (.reject400, reg)

/-- Whether `handleMcpGet` accepts the request (true) or sends the 400
invalid-session error (false). -/
def getDecision (reg : Registry) (sessionId : Option String) : Bool :=
  optTruthy sessionId && (mapGet reg (sessionId.getD "")).isSome

/-- Model of `handleMcpDelete`: on an unresolvable id, reject with 400 and change
nothing; otherwise delete the session's event log, then remove the entry from
the registry.  Returns the verdict (`false` = 400), the new registry, and the
terminated session's event store after `deleteSession` (`none` on reject). -/
def deleteStep (reg : Registry) (sessionId : Option String) :
    Bool × Registry × Option Store :=
  let sid := sessionId.getD ""
  match (if optTruthy sessionId then mapGet reg sid else none) with
  | none => (false, reg, none)
  | some e =>
    (true, mapDelete reg sid, some (deleteSession e.eventStore sid))

/-- The registry mutations subsequent requests can perform, used to state that
a deleted session id stays unresolvable. -/
inductive RegOp
  | opTouch (sid : String) (now : Int)
  | opCreate (sid : String) (e : MEntry)
  | opDelete (sid : String)
  | opSweep (ttl now : Int)

/-- Apply one registry mutation. -/
def applyOp (reg : Registry) : RegOp → Registry
  | .opTouch sid now => touch reg sid now
  | .opCreate sid e => mapSet reg sid e
  | .opDelete sid => mapDelete reg sid
  | .opSweep ttl now => (sweepExpired reg ttl now).1

/-- Apply a sequence of registry mutations. -/
def applyOps (reg : Registry) : List RegOp → Registry
  | [] => reg
  | op :: ops => applyOps (applyOp reg op) ops

/-- The session id an operation can newly bind (only `opCreate` binds one). -/
def opCreates : RegOp → Option String
  | .opCreate sid _ => some sid
  | _ => none

/-! ### Auth gate (src/http/middleware.mts) -/

/-- The code points JavaScript's `\s` regex class matches. -/
def isJsWhitespace (c : Char) : Bool :=
  [0x9, 0xa, 0xb, 0xc, 0xd, 0x20, 0xa0, 0x1680, 0x2000, 0x2001, 0x2002,
   0x2003, 0x2004, 0x2005, 0x2006, 0x2007, 0x2008, 0x2009, 0x200a, 0x2028,
   0x2029, 0x202f, 0x205f, 0x3000, 0xfeff].contains c.toNat

/-- Model of `authHeader.replace(/^Bearer\s+/i, '')`: strip a case-insensitive
`Bearer` scheme prefix followed by at least one whitespace character; leave
the header unchanged when the pattern does not match. -/
def stripBearer (s : String) : String :=
  match s.data with
  | b :: e :: a :: r :: e2 :: r2 :: rest =>
    if b.toLower == 'b' && e.toLower == 'e' && a.toLower == 'a' &&
       r.toLower == 'r' && e2.toLower == 'e' && r2.toLower == 'r' then
      match rest with
      | [] => s
      | c :: _ =>
        if isJsWhitespace c then (rest.dropWhile isJsWhitespace).asString else s
    else s
  | _ => s

/-- Model of `validateApiKey(req)`: `API_KEY` is falsy (unset or empty) → pass;
no/empty `Authorization` header → fail; otherwise strip the bearer scheme and
compare against the secret, equal-length test first, then the fixed-time byte
comparison (`timingSafeEqual` on equal-length buffers decides byte equality;
its length-mismatch throw is caught and returned as `false`). -/
def validateApiKey (apiKey : String) (authHeader : Option String) : Bool :=
  if apiKey == "" then true
  else
    match authHeader with
    | none => false
    | some h =>
      if h == "" then false
      else
        let token := stripBearer h
        if token.length != apiKey.length then false
        else token == apiKey

/-- Outcome of the authentication middleware. -/
inductive MwResult
  | next
  | unauthorized
deriving DecidableEq, Repr

/-- Model of `apiKeyMiddleware`: `/health` bypasses the gate unconditionally; otherwise
a failed `validateApiKey` answers 401. -/
def apiKeyMiddleware (apiKey : String) (path : String)
    (authHeader : Option String) : MwResult :=
  if path == "/health" then .next
  else if validateApiKey apiKey authHeader then .next else .unauthorized

/-! ### Error responses and write-once discipline (src/http/errors.mts) -/

/-- A response is modelled by the list of status codes written to it;
`headersSent` is its non-emptiness. -/
abbrev ResLog := List Nat

/-- Model of `handleTransportError`: writes a 500 only when headers were not sent. -/
def handleTransportErrorWrites (res : ResLog) : ResLog :=
  if res.isEmpty then res ++ [500] else res

/-- Model of `sendInvalidRequestError`: writes the 400 response unconditionally. -/
def sendInvalidRequestErrorWrites (res : ResLog) : ResLog :=
  res ++ [400]

/-- Model of `sendInternalError`: writes a 500 only when headers were not sent. -/
def sendInternalErrorWrites (res : ResLog) : ResLog :=
  if res.isEmpty then res ++ [500] else res

/-- The response writes of one `handleMcpPost` invocation: on the reuse and
create branches the transport writes `transportWrites` responses and
`handleTransportError` runs if it threw; the third branch sends the 400; the
outer catch runs `sendInternalError`. -/
def handleMcpPostWrites (branch : PostOutcome) (transportWrites : Nat)
    (transportThrew outerThrew : Bool) : ResLog :=
  let res :=
    match branch with
    | .reuse =>
      let r := List.replicate transportWrites 200
      if transportThrew then handleTransportErrorWrites r else r
    | .create =>
      let r := List.replicate transportWrites 200
      if transportThrew then handleTransportErrorWrites r else r
    | .reject400 => sendInvalidRequestErrorWrites []
  if outerThrew then sendInternalErrorWrites res else res

/-! ### Concrete scenarios used by counterexamples and witnesses -/

/-- Scenario of 1001 appends to stream `"s"` at distinct timestamps `0..1000`, enough to
evict the first event from the bounded buffer. -/
def evictInputs : List AppendInput :=
  (List.range 1001).map (fun i => (i, "", 0))

/-! ## Lemmas: decimal rendering (`Nat.repr`) -/

theorem repChars_of_lt (n : Nat) (h : n < 10) : repChars n = [Nat.digitChar n] := by
  conv_lhs => rw [repChars]
  exact dif_pos h

theorem repChars_of_ge (n : Nat) (h : ¬ n < 10) :
    repChars n = repChars (n / 10) ++ [Nat.digitChar (n % 10)] := by
  conv_lhs => rw [repChars]
  exact dif_neg h

theorem toDigitsCore_eq_repChars :
    ∀ (f n : Nat) (acc : List Char), n < 10 ^ f → 0 < f →
      Nat.toDigitsCore 10 f n acc = repChars n ++ acc := by
  intro f
  induction f with
  | zero => omega
  | succ f ih =>
    intro n acc hlt _
    rw [Nat.toDigitsCore]
    by_cases hdiv : n / 10 = 0
    · have hn : n < 10 := by omega
      rw [if_pos hdiv, repChars_of_lt n hn, Nat.mod_eq_of_lt hn]
      rfl
    · have hf : 0 < f := by
        rcases Nat.eq_zero_or_pos f with hf0 | hf0
        · subst hf0
          norm_num at hlt
          omega
        · exact hf0
      have hlt' : n / 10 < 10 ^ f := by
        rw [Nat.div_lt_iff_lt_mul (by norm_num)]
        calc n < 10 ^ (f + 1) := hlt
          _ = 10 ^ f * 10 := by ring
      rw [if_neg hdiv, ih (n / 10) _ hlt' hf,
        repChars_of_ge n (by omega)]
      simp

theorem repr_data (n : Nat) : (Nat.repr n).data = repChars n := by
  have hb : n < 10 ^ (n + 1) := by
    calc n < 10 ^ n := Nat.lt_pow_self (by norm_num) n
      _ ≤ 10 ^ (n + 1) := Nat.pow_le_pow_right (by norm_num) (Nat.le_succ n)
  show (Nat.toDigits 10 n).asString.data = repChars n
  rw [Nat.toDigits, toDigitsCore_eq_repChars (n + 1) n [] hb (Nat.succ_pos n)]
  simp [List.asString]

theorem digitChar_ne_underscore (n : Nat) (h : n < 10) : Nat.digitChar n ≠ '_' := by
  interval_cases n <;> decide

theorem digitChar_inj (a b : Nat) (ha : a < 10) (hb : b < 10)
    (h : Nat.digitChar a = Nat.digitChar b) : a = b := by
  interval_cases a <;> interval_cases b <;> revert h <;> decide

theorem repChars_ne_nil (n : Nat) : repChars n ≠ [] := by
  rw [repChars]
  split <;> simp

theorem underscore_not_mem_repChars (n : Nat) : '_' ∉ repChars n := by
  induction n using Nat.strong_induction_on with
  | _ n ih =>
    by_cases h : n < 10
    · rw [repChars_of_lt n h]
      simp [(digitChar_ne_underscore n h).symm]
    · rw [repChars_of_ge n h]
      intro hmem
      rcases List.mem_append.mp hmem with hmem | hmem
      · exact ih (n / 10) (Nat.div_lt_self (by omega) (by norm_num)) hmem
      · exact digitChar_ne_underscore (n % 10) (Nat.mod_lt n (by norm_num))
          (List.mem_singleton.mp hmem).symm

theorem repChars_injective (a : Nat) :
    ∀ b : Nat, repChars a = repChars b → a = b := by
  induction a using Nat.strong_induction_on with
  | _ a ih =>
    intro b hab
    by_cases ha : a < 10 <;> by_cases hb : b < 10
    · rw [repChars_of_lt a ha, repChars_of_lt b hb] at hab
      exact digitChar_inj a b ha hb (List.singleton_injective hab)
    · rw [repChars_of_lt a ha, repChars_of_ge b hb] at hab
      have hlen : (1 : Nat) = (repChars (b / 10)).length + 1 := by
        simpa using congrArg List.length hab
      have hpos : 0 < (repChars (b / 10)).length :=
        List.length_pos.mpr (repChars_ne_nil (b / 10))
      omega
    · rw [repChars_of_ge a ha, repChars_of_lt b hb] at hab
      have hlen : (repChars (a / 10)).length + 1 = 1 := by
        simpa using congrArg List.length hab
      have hpos : 0 < (repChars (a / 10)).length :=
        List.length_pos.mpr (repChars_ne_nil (a / 10))
      omega
    · rw [repChars_of_ge a ha, repChars_of_ge b hb] at hab
      obtain ⟨h1, h2⟩ := List.append_inj' hab (by simp)
      have hdiv : a / 10 = b / 10 :=
        ih (a / 10) (Nat.div_lt_self (by omega) (by norm_num)) (b / 10) h1
      have hmod : a % 10 = b % 10 :=
        digitChar_inj _ _ (Nat.mod_lt a (by norm_num)) (Nat.mod_lt b (by norm_num))
          (List.singleton_injective h2)
      omega

theorem underscore_not_mem_repr (n : Nat) : '_' ∉ (Nat.repr n).data := by
  rw [repr_data]
  exact underscore_not_mem_repChars n

theorem repr_injective {a b : Nat} (h : Nat.repr a = Nat.repr b) : a = b := by
  have := congrArg String.data h
  rw [repr_data, repr_data] at this
  exact repChars_injective a b this

/-! ## Lemmas: event-id structure -/

theorem asString_data (s : String) : s.data.asString = s := rfl

theorem generateEventId_data (sid : String) (t : Nat) (r : String) :
    (generateEventId sid t r).data =
      sid.data ++ '_' :: ((Nat.repr t).data ++ '_' :: r.data) := by
  show (sid ++ "_" ++ Nat.repr t ++ "_" ++ r).data = _
  simp [String.data_append]

theorem generateEventId_ne_empty (sid : String) (t : Nat) (r : String) :
    generateEventId sid t r ≠ "" := by
  intro h
  have := congrArg String.data h
  rw [generateEventId_data] at this
  simp at this

theorem takeWhile_append_underscore (xs ys : List Char) (h : '_' ∉ xs) :
    (xs ++ '_' :: ys).takeWhile (fun c => c != '_') = xs := by
  induction xs with
  | nil => simp
  | cons c cs ih =>
    have hc : (c != '_') = true := by
      simp only [bne_iff_ne, ne_eq]
      exact fun hc => h (hc ▸ List.mem_cons_self c cs)
    simp only [List.cons_append, List.takeWhile_cons, hc, if_true]
    rw [ih (fun hm => h (List.mem_cons_of_mem c hm))]

theorem getStreamIdFromEventId_generateEventId (sid : String) (t : Nat)
    (r : String) (h : '_' ∉ sid.data) :
    getStreamIdFromEventId (generateEventId sid t r) = sid := by
  unfold getStreamIdFromEventId
  rw [generateEventId_data, takeWhile_append_underscore _ _ h, asString_data]

theorem append_underscore_inj :
    ∀ (as : List Char) {bs : List Char} (as' : List Char) {bs' : List Char},
      '_' ∉ as → '_' ∉ as' →
      as ++ '_' :: bs = as' ++ '_' :: bs' → as = as' ∧ bs = bs' := by
  intro as
  induction as with
  | nil =>
    intro bs as' bs' _ ha' h
    cases as' with
    | nil => simpa using h
    | cons c cs =>
      simp only [List.nil_append, List.cons_append, List.cons.injEq] at h
      exact absurd (h.1 ▸ List.mem_cons_self c cs) ha'
  | cons c cs ih =>
    intro bs as' bs' ha ha' h
    cases as' with
    | nil =>
      simp only [List.cons_append, List.nil_append, List.cons.injEq] at h
      exact absurd (h.1 ▸ List.mem_cons_self c cs) ha
    | cons c' cs' =>
      simp only [List.cons_append, List.cons.injEq] at h
      obtain ⟨h1, h2⟩ :=
        ih cs' (fun hm => ha (List.mem_cons_of_mem c hm))
          (fun hm => ha' (List.mem_cons_of_mem c' hm)) h.2
      exact ⟨by rw [h.1, h1], h2⟩

theorem generateEventId_inj {sid : String} {t t' : Nat} {r r' : String}
    (h : generateEventId sid t r = generateEventId sid t' r') :
    t = t' ∧ r = r' := by
  have hd := congrArg String.data h
  rw [generateEventId_data, generateEventId_data] at hd
  have hmid : (Nat.repr t).data ++ '_' :: r.data
      = (Nat.repr t').data ++ '_' :: r'.data := by
    have := List.append_cancel_left hd
    exact List.cons_injective this
  obtain ⟨h1, h2⟩ :=
    append_underscore_inj _ _ (underscore_not_mem_repr t)
      (underscore_not_mem_repr t') hmid
  exact ⟨repr_injective (String.ext h1), String.ext h2⟩

theorem mintedIds_map (sid : String) (inputs : List AppendInput) :
    mintedIds sid inputs
      = inputs.map (fun i => generateEventId sid i.1 i.2.1) := by
  simp [mintedIds, mintedEvents, List.map_map, Function.comp]

theorem mintedIds_nodup (sid : String) (inputs : List AppendInput)
    (h : (inputs.map (fun i => (i.1, i.2.1))).Nodup) :
    (mintedIds sid inputs).Nodup := by
  rw [mintedIds_map]
  have : inputs.map (fun i => generateEventId sid i.1 i.2.1)
      = (inputs.map (fun i => (i.1, i.2.1))).map
          (fun p => generateEventId sid p.1 p.2) := by
    simp [List.map_map, Function.comp]
  rw [this]
  refine h.map ?_
  rintro ⟨t, r⟩ ⟨t', r'⟩ hpair
  obtain ⟨ht, hr⟩ := generateEventId_inj hpair
  exact Prod.ext ht hr

/-! ## Lemmas: map operations -/

theorem mapGet_singleton {α : Type} (k key : String) (v : α) :
    mapGet [(k, v)] key = if k = key then some v else none := by
  simp [mapGet]

theorem mapGet_mapSet_self {α : Type} (s : List (String × α)) (k : String)
    (v : α) : mapGet (mapSet s k v) k = some v := by
  induction s with
  | nil => simp [mapSet, mapGet]
  | cons kv rest ih =>
    obtain ⟨k', w⟩ := kv
    by_cases h : k' = k
    · simp [mapSet, h, mapGet]
    · simp [mapSet, h, mapGet, ih]

theorem mapGet_mapSet_ne {α : Type} (s : List (String × α)) (k key : String)
    (v : α) (h : k ≠ key) : mapGet (mapSet s k v) key = mapGet s key := by
  induction s with
  | nil => simp [mapSet, mapGet, h]
  | cons kv rest ih =>
    obtain ⟨k', w⟩ := kv
    by_cases hk : k' = k
    · subst hk
      simp [mapSet, mapGet, h]
    · by_cases hkey : k' = key
      · simp [mapSet, hk, mapGet, hkey, Ne.symm h]
      · simp [mapSet, hk, mapGet, hkey, ih]

theorem mapGet_eq_none_of_not_mem_keys {α : Type} (s : List (String × α))
    (key : String) (h : key ∉ s.map Prod.fst) : mapGet s key = none := by
  induction s with
  | nil => rfl
  | cons kv rest ih =>
    obtain ⟨k', w⟩ := kv
    simp only [List.map_cons, List.mem_cons] at h
    rw [mapGet, if_neg (fun hh => h (Or.inl hh.symm))]
    exact ih (fun hm => h (Or.inr hm))

theorem mapGet_mapDelete_self {α : Type} (s : List (String × α)) (k : String)
    (h : (s.map Prod.fst).Nodup) : mapGet (mapDelete s k) k = none := by
  induction s with
  | nil => simp [mapDelete, mapGet]
  | cons kv rest ih =>
    obtain ⟨k', w⟩ := kv
    simp only [List.map_cons, List.nodup_cons] at h
    by_cases hk : k' = k
    · subst hk
      rw [mapDelete, if_pos rfl]
      exact mapGet_eq_none_of_not_mem_keys rest k' h.1
    · rw [mapDelete, if_neg hk, mapGet, if_neg hk]
      exact ih h.2

theorem mapGet_none_mapDelete {α : Type} (s : List (String × α)) (k key : String)
    (h : mapGet s key = none) : mapGet (mapDelete s k) key = none := by
  induction s with
  | nil => simp [mapDelete, mapGet]
  | cons kv rest ih =>
    obtain ⟨k', w⟩ := kv
    rw [mapGet] at h
    by_cases hkey : k' = key
    · simp [hkey] at h
    · rw [if_neg hkey] at h
      by_cases hk : k' = k
      · rw [mapDelete, if_pos hk]
        exact h
      · rw [mapDelete, if_neg hk, mapGet, if_neg hkey]
        exact ih h

theorem mapGet_none_mapSet_ne {α : Type} (s : List (String × α))
    (k key : String) (v : α) (hne : k ≠ key) (h : mapGet s key = none) :
    mapGet (mapSet s k v) key = none := by
  rw [mapGet_mapSet_ne s k key v hne]
  exact h

theorem mapGet_none_touch (reg : Registry) (sid key : String) (now : Int)
    (h : mapGet reg key = none) : mapGet (touch reg sid now) key = none := by
  induction reg with
  | nil => simpa [touch] using h
  | cons kv rest ih =>
    obtain ⟨k', w⟩ := kv
    rw [mapGet] at h
    by_cases hkey : k' = key
    · simp [hkey] at h
    · rw [if_neg hkey] at h
      by_cases hs : k' = sid
      · rw [touch, if_pos hs, mapGet, if_neg hkey]
        exact h
      · rw [touch, if_neg hs, mapGet, if_neg hkey]
        exact ih h

theorem mapGet_none_filter (p : String × MEntry → Bool) (reg : Registry)
    (key : String) (h : mapGet reg key = none) :
    mapGet (reg.filter p) key = none := by
  induction reg with
  | nil => simp [mapGet]
  | cons kv rest ih =>
    obtain ⟨k', w⟩ := kv
    rw [mapGet] at h
    by_cases hkey : k' = key
    · simp [hkey] at h
    · rw [if_neg hkey] at h
      rw [List.filter_cons]
      by_cases hp : p (k', w)
      · simp only [hp, if_true, mapGet, if_neg hkey]
        exact ih h
      · simp only [hp]
        simp only [Bool.false_eq_true, if_false]
        exact ih h

theorem mapGet_filter_of_mem (p : String × MEntry → Bool) (reg : Registry)
    (key : String) (e : MEntry) (h : mapGet reg key = some e)
    (hp : p (key, e) = true) : mapGet (reg.filter p) key = some e := by
  induction reg with
  | nil => simp [mapGet] at h
  | cons kv rest ih =>
    obtain ⟨k', w⟩ := kv
    rw [mapGet] at h
    by_cases hkey : k' = key
    · subst hkey
      rw [if_pos rfl] at h
      cases h
      rw [List.filter_cons, if_pos hp, mapGet, if_pos rfl]
    · rw [if_neg hkey] at h
      rw [List.filter_cons]
      by_cases hpk : p (k', w)
      · simp only [hpk, if_true, mapGet, if_neg hkey]
        exact ih h
      · simp only [hpk, Bool.false_eq_true, if_false]
        exact ih h

/-! ## Lemmas: event-store buffers -/

theorem trimEvents_eq_drop (es : List Ev) :
    trimEvents es = es.drop (es.length - MAX_EVENTS_PER_SESSION) := by
  unfold trimEvents
  split
  · rfl
  · rw [Nat.sub_eq_zero_of_le (by omega), List.drop_zero]

theorem bufStep_eq_drop (buf : List Ev) (e : Ev) :
    bufStep buf e
      = (buf ++ [e]).drop (buf.length + 1 - MAX_EVENTS_PER_SESSION) := by
  rw [bufStep, trimEvents_eq_drop]
  simp

theorem bufStep_length_le (buf : List Ev) (e : Ev) :
    (bufStep buf e).length ≤ MAX_EVENTS_PER_SESSION := by
  rw [bufStep_eq_drop, List.length_drop, List.length_append]
  simp [MAX_EVENTS_PER_SESSION]
  omega

theorem foldl_bufStep (evs : List Ev) :
    ∀ buf : List Ev, buf.length ≤ MAX_EVENTS_PER_SESSION →
      List.foldl bufStep buf evs
        = (buf ++ evs).drop (buf.length + evs.length - MAX_EVENTS_PER_SESSION) := by
  induction evs with
  | nil =>
    intro buf hb
    simp [Nat.sub_eq_zero_of_le hb]
  | cons e evs ih =>
    intro buf hb
    rw [List.foldl_cons, ih (bufStep buf e) (bufStep_length_le buf e),
      bufStep_eq_drop]
    have hd : buf.length + 1 - MAX_EVENTS_PER_SESSION ≤ (buf ++ [e]).length := by
      simp only [List.length_append, List.length_singleton]
      omega
    simp only [List.length_drop, List.length_append, List.length_singleton]
    rw [← List.drop_append_of_le_length hd, List.drop_drop]
    have harr : (buf ++ [e]) ++ evs = buf ++ e :: evs := by simp
    rw [harr]
    refine congrFun (congrArg List.drop ?_) _
    simp only [List.length_cons]
    omega

theorem mintedEvents_length (sid : String) (inputs : List AppendInput) :
    (mintedEvents sid inputs).length = inputs.length := by
  simp [mintedEvents]

theorem mintedIds_length (sid : String) (inputs : List AppendInput) :
    (mintedIds sid inputs).length = inputs.length := by
  simp [mintedIds, mintedEvents]

theorem storeEvent_singleton (sid : String) (buf : List Ev) (t : Nat)
    (r : String) (m : Nat) :
    storeEvent [(sid, buf)] sid t r m
      = ([(sid, bufStep buf ⟨generateEventId sid t r, m⟩)],
         generateEventId sid t r) := by
  simp [storeEvent, mapGet, mapSet, bufStep]

theorem runAppends_singleton (sid : String) (inputs : List AppendInput) :
    ∀ buf : List Ev,
      runAppends sid [(sid, buf)] inputs
        = ([(sid, List.foldl bufStep buf (mintedEvents sid inputs))],
           mintedIds sid inputs) := by
  induction inputs with
  | nil => intro buf; simp [runAppends, mintedEvents, mintedIds]
  | cons i rest ih =>
    intro buf
    rw [runAppends, storeEvent_singleton]
    simp only [ih]
    simp [mintedEvents, mintedIds]

theorem storeEvent_empty (sid : String) (t : Nat) (r : String) (m : Nat) :
    storeEvent [] sid t r m
      = ([(sid, [⟨generateEventId sid t r, m⟩])], generateEventId sid t r) := by
  simp [storeEvent, mapGet, mapSet, trimEvents, MAX_EVENTS_PER_SESSION]

theorem runAppends_run (sid : String) (inputs : List AppendInput)
    (h : inputs ≠ []) :
    runAppends sid [] inputs
      = ([(sid, (mintedEvents sid inputs).drop
            (inputs.length - MAX_EVENTS_PER_SESSION))],
         mintedIds sid inputs) := by
  cases inputs with
  | nil => exact absurd rfl h
  | cons i rest =>
    rw [runAppends, storeEvent_empty]
    simp only [runAppends_singleton]
    have hstep : List.foldl bufStep [⟨generateEventId sid i.1 i.2.1, i.2.2⟩]
        (mintedEvents sid rest)
        = List.foldl bufStep [] (mintedEvents sid (i :: rest)) := by
      simp [mintedEvents, bufStep, trimEvents, MAX_EVENTS_PER_SESSION]
    rw [hstep, foldl_bufStep _ [] (by simp [MAX_EVENTS_PER_SESSION])]
    simp [mintedEvents, mintedIds]

/-! ## Lemmas: findIndex and replay -/

theorem findIndex_eventId_of_not_mem (l : List Ev) (id : String)
    (h : id ∉ l.map Ev.eventId) :
    findIndex (fun e => e.eventId == id) l = none := by
  induction l with
  | nil => rfl
  | cons e rest ih =>
    simp only [List.map_cons, List.mem_cons] at h
    rw [findIndex, if_neg, ih (fun hm => h (Or.inr hm))]
    · rfl
    · simp only [beq_iff_eq]
      exact fun hh => h (Or.inl hh.symm)

theorem findIndex_eventId_of_getElem (l : List Ev) :
    ∀ (i : Nat) (e : Ev), l[i]? = some e → (l.map Ev.eventId).Nodup →
      findIndex (fun x => x.eventId == e.eventId) l = some i := by
  induction l with
  | nil => intro i e hi; simp at hi
  | cons a rest ih =>
    intro i e hi hnd
    simp only [List.map_cons, List.nodup_cons] at hnd
    cases i with
    | zero =>
      simp only [List.getElem?_cons_zero, Option.some.injEq] at hi
      subst hi
      simp [findIndex]
    | succ j =>
      simp only [List.getElem?_cons_succ] at hi
      rw [findIndex, if_neg, ih j e hi hnd.2]
      · rfl
      · simp only [beq_iff_eq]
        intro hh
        exact hnd.1 (hh ▸ List.mem_map_of_mem Ev.eventId (List.getElem?_mem hi))

theorem replayEventsAfter_singleton (sid : String) (buf : List Ev)
    (id : String) (hne : id ≠ "") (hext : getStreamIdFromEventId id = sid)
    (hsid : sid ≠ "") :
    replayEventsAfter [(sid, buf)] id
      = (match findIndex (fun e => e.eventId == id) buf with
         | some i => (buf.drop (i + 1), sid)
         | none => ([], sid)) := by
  simp [replayEventsAfter, hne, hext, hsid, mapGet_singleton]

theorem replay_mem_singleton (sid : String) (buf : List Ev) (lid : String)
    (x : Ev) (hx : x ∈ (replayEventsAfter [(sid, buf)] lid).1) : x ∈ buf := by
  by_cases h1 : lid = ""
  · rw [replayEventsAfter, if_pos h1] at hx
    simp at hx
  · by_cases h2 : getStreamIdFromEventId lid = ""
    · rw [replayEventsAfter, if_neg h1] at hx
      simp [h2] at hx
    · by_cases h3 : sid = getStreamIdFromEventId lid
      · have hm : mapGet [(sid, buf)] (getStreamIdFromEventId lid) = some buf := by
          rw [mapGet_singleton, if_pos h3]
        rcases hfi : findIndex (fun e => e.eventId == lid) buf with _ | i
        · rw [replayEventsAfter, if_neg h1, if_neg h2] at hx
          simp only [hm, hfi] at hx
          simp at hx
        · rw [replayEventsAfter, if_neg h1, if_neg h2] at hx
          simp only [hm, hfi] at hx
          exact List.mem_of_mem_drop hx
      · have hm : mapGet [(sid, buf)] (getStreamIdFromEventId lid) = none := by
          rw [mapGet_singleton, if_neg h3]
        rw [replayEventsAfter, if_neg h1, if_neg h2] at hx
        simp only [hm] at hx
        simp at hx

theorem replay_run (sid : String) (inputs : List AppendInput) (k : Nat)
    (idk : String) (hu : '_' ∉ sid.data) (hne : sid ≠ "")
    (hnd : (mintedIds sid inputs).Nodup)
    (hk : (mintedIds sid inputs)[k]? = some idk) :
    replayEventsAfter (runAppends sid [] inputs).1 idk
      = (if inputs.length - MAX_EVENTS_PER_SESSION ≤ k
         then (mintedEvents sid inputs).drop (k + 1) else [], sid) := by
  obtain ⟨hklt, _⟩ := List.getElem?_eq_some_iff.mp hk
  rw [mintedIds_length] at hklt
  have hnil : inputs ≠ [] := by
    intro hh
    subst hh
    simp at hklt
  obtain ⟨inp, _, hid⟩ := List.mem_map.mp
    ((mintedIds_map sid inputs) ▸ List.getElem?_mem hk)
  have hne1 : idk ≠ "" := fun hh => generateEventId_ne_empty sid inp.1 inp.2.1 (hid.trans hh)
  have hext : getStreamIdFromEventId idk = sid := by
    rw [← hid]
    exact getStreamIdFromEventId_generateEventId sid inp.1 inp.2.1 hu
  rw [runAppends_run sid inputs hnil,
    replayEventsAfter_singleton sid _ idk hne1 hext hne]
  set M := mintedEvents sid inputs with hM
  set d := inputs.length - MAX_EVENTS_PER_SESSION with hd
  have hMlen : M.length = inputs.length := mintedEvents_length sid inputs
  have hids : mintedIds sid inputs = M.map Ev.eventId := rfl
  have hidsk : (M.map Ev.eventId)[k]? = some idk := hids ▸ hk
  have hmapnd : ((M.drop d).map Ev.eventId).Nodup := by
    rw [List.map_drop]
    exact (List.drop_sublist d (M.map Ev.eventId)).nodup (hids ▸ hnd)
  by_cases hcase : d ≤ k
  · obtain ⟨ek, hMk, hek⟩ : ∃ ek, M[k]? = some ek ∧ ek.eventId = idk := by
      rw [List.getElem?_map] at hidsk
      cases hM2 : M[k]? with
      | none => rw [hM2] at hidsk; simp at hidsk
      | some ek =>
        rw [hM2] at hidsk
        simp at hidsk
        exact ⟨ek, rfl, hidsk⟩
    have hdropk : (M.drop d)[k - d]? = some ek := by
      rw [List.getElem?_drop]
      have hdk : d + (k - d) = k := by omega
      rw [hdk, hMk]
    have hfi : findIndex (fun e => e.eventId == idk) (M.drop d) = some (k - d) := by
      rw [← hek]
      exact findIndex_eventId_of_getElem _ _ _ hdropk hmapnd
    rw [hfi]
    simp only [if_pos hcase]
    rw [List.drop_drop]
    have hdk1 : d + (k - d + 1) = k + 1 := by omega
    rw [hdk1]
  · have hnotmem : idk ∉ (M.drop d).map Ev.eventId := by
      intro hmem
      rw [List.map_drop] at hmem
      have hnd' : ((M.map Ev.eventId).take d ++ (M.map Ev.eventId).drop d).Nodup := by
        rw [List.take_append_drop]
        exact hids ▸ hnd
      have hdisj := List.disjoint_of_nodup_append hnd'
      have htake' : ((M.map Ev.eventId).take d)[k]? = some idk := by
        rw [List.getElem?_take_of_lt (show k < d by omega)]
        exact hidsk
      exact hdisj (List.getElem?_mem htake') hmem
    rw [findIndex_eventId_of_not_mem _ _ hnotmem]
    simp only [if_neg hcase]

theorem not_mem_drop_of_getElem_lt (ids : List String) (k d : Nat)
    (idk : String) (hnd : ids.Nodup) (hk : ids[k]? = some idk) (hkd : k < d) :
    idk ∉ ids.drop d := by
  intro hmem
  have hnd' : (ids.take d ++ ids.drop d).Nodup := by
    rw [List.take_append_drop]
    exact hnd
  have hdisj := List.disjoint_of_nodup_append hnd'
  have htake' : (ids.take d)[k]? = some idk := by
    rw [List.getElem?_take_of_lt hkd]
    exact hk
  exact hdisj (List.getElem?_mem htake') hmem

theorem trimEvents_length_le (es : List Ev) :
    (trimEvents es).length ≤ MAX_EVENTS_PER_SESSION := by
  rw [trimEvents_eq_drop, List.length_drop]
  omega

theorem storeEvent_buffer_le (s : Store) (sid : String) (t : Nat) (r : String)
    (m : Nat) :
    ((mapGet (storeEvent s sid t r m).1 sid).getD []).length
      ≤ MAX_EVENTS_PER_SESSION := by
  unfold storeEvent
  simp only [mapGet_mapSet_self, Option.getD_some]
  exact trimEvents_length_le _

theorem mintedEvents_append (sid : String) (a b : List AppendInput) :
    mintedEvents sid (a ++ b) = mintedEvents sid a ++ mintedEvents sid b := by
  simp [mintedEvents]

theorem mintedIds_append (sid : String) (a b : List AppendInput) :
    mintedIds sid (a ++ b) = mintedIds sid a ++ mintedIds sid b := by
  simp [mintedIds, mintedEvents_append]

theorem evicted_not_in_replay (sid : String) (inputs₁ inputs₂ : List AppendInput)
    (k : Nat) (idk lid : String)
    (hnd : (mintedIds sid (inputs₁ ++ inputs₂)).Nodup)
    (hkd : k < inputs₁.length - MAX_EVENTS_PER_SESSION)
    (hk : (mintedIds sid inputs₁)[k]? = some idk) :
    idk ∉ (replayEventsAfter (runAppends sid []
        (inputs₁ ++ inputs₂)).1 lid).1.map Ev.eventId := by
  intro hmem
  have hnil : inputs₁ ++ inputs₂ ≠ [] := by
    intro hh
    rcases List.append_eq_nil.mp hh with ⟨h1, h2⟩
    subst h1
    simp at hkd
  rw [runAppends_run sid _ hnil] at hmem
  obtain ⟨x, hx, hxid⟩ := List.mem_map.mp hmem
  have hxbuf := replay_mem_singleton sid _ lid x hx
  have hxid' : idk ∈ ((mintedEvents sid (inputs₁ ++ inputs₂)).drop
      ((inputs₁ ++ inputs₂).length - MAX_EVENTS_PER_SESSION)).map Ev.eventId :=
    hxid ▸ List.mem_map_of_mem Ev.eventId hxbuf
  rw [List.map_drop] at hxid'
  have hkT : (mintedIds sid (inputs₁ ++ inputs₂))[k]? = some idk := by
    obtain ⟨hlt, _⟩ := List.getElem?_eq_some_iff.mp hk
    rw [mintedIds_append, List.getElem?_append_left hlt]
    exact hk
  have hlen1 : (mintedIds sid inputs₁).length = inputs₁.length :=
    mintedIds_length sid inputs₁
  refine not_mem_drop_of_getElem_lt (mintedIds sid (inputs₁ ++ inputs₂)) k
    ((inputs₁ ++ inputs₂).length - MAX_EVENTS_PER_SESSION) idk hnd hkT ?_ hxid'
  simp only [List.length_append]
  omega

theorem mapGet_none_applyOp (reg : Registry) (op : RegOp) (key : String)
    (hop : opCreates op ≠ some key) (h : mapGet reg key = none) :
    mapGet (applyOp reg op) key = none := by
  cases op with
  | opTouch sid now => exact mapGet_none_touch reg sid key now h
  | opCreate sid e =>
    refine mapGet_none_mapSet_ne reg sid key e ?_ h
    intro hh
    exact hop (by simp [opCreates, hh])
  | opDelete sid => exact mapGet_none_mapDelete reg sid key h
  | opSweep ttl now => exact mapGet_none_filter _ reg key h

theorem mapGet_none_applyOps (ops : List RegOp) :
    ∀ (reg : Registry) (key : String),
      (∀ op ∈ ops, opCreates op ≠ some key) → mapGet reg key = none →
      mapGet (applyOps reg ops) key = none := by
  induction ops with
  | nil => intro reg key _ h; exact h
  | cons op ops ih =>
    intro reg key hop h
    rw [applyOps]
    exact ih (applyOp reg op) key (fun o ho => hop o (List.mem_cons_of_mem op ho))
      (mapGet_none_applyOp reg op key (hop op (List.mem_cons_self op ops)) h)

/-! ## Lemmas: rate limiter -/

theorem checkRateLimit_no_reset (lim c : Nat) (tl now : Int)
    (hle : now - tl ≤ 60000) :
    checkRateLimit lim (some ⟨c, tl⟩) now
      = (if c ≥ lim then (false, some ⟨c, tl⟩)
         else (true, some ⟨c + 1, now⟩)) := by
  rw [checkRateLimit]
  simp only [if_neg (by omega : ¬ now - tl > 60000)]

theorem rlRun_burst (lim : Nat) :
    ∀ (times : List Int) (c : Nat) (tl t0 : Int),
      (∀ t ∈ times, t0 ≤ t ∧ t ≤ t0 + 60000) → t0 ≤ tl → tl ≤ t0 + 60000 →
      c ≤ lim →
      (rlRun lim (some ⟨c, tl⟩) times).1
        = (List.range times.length).map (fun i => decide (c + i < lim)) := by
  intro times
  induction times with
  | nil => intro c tl t0 _ _ _ _; rfl
  | cons t ts ih =>
    intro c tl t0 hbound h1 h2 hc
    obtain ⟨ht1, ht2⟩ := hbound t (List.mem_cons_self t ts)
    have hbts : ∀ u ∈ ts, t0 ≤ u ∧ u ≤ t0 + 60000 :=
      fun u hu => hbound u (List.mem_cons_of_mem t hu)
    rw [rlRun]
    rw [checkRateLimit_no_reset lim c tl t (by omega)]
    rw [List.length_cons, List.range_succ_eq_map]
    simp only [List.map_cons, List.map_map]
    by_cases hcl : c ≥ lim
    · simp only [if_pos hcl]
      rw [ih c tl t0 hbts h1 h2 hc]
      have hhead : decide (c + 0 < lim) = false := by
        simp
        omega
      rw [hhead]
      refine congrArg _ (List.map_congr_left ?_)
      intro a _
      simp only [Function.comp]
      have hl : decide (c + a < lim) = false := by simp; omega
      have hr : decide (c + (a + 1) < lim) = false := by simp; omega
      rw [hl, hr]
    · simp only [if_neg hcl]
      rw [ih (c + 1) t t0 hbts ht1 ht2 (by omega)]
      have hhead : decide (c + 0 < lim) = true := by
        simp
        omega
      rw [hhead]
      refine congrArg _ (List.map_congr_left ?_)
      intro a _
      simp only [Function.comp]
      have harith : c + 1 + a = c + (a + 1) := by omega
      rw [harith]

/-! ## Lemmas: the concrete eviction scenario -/

theorem evictInputs_length : evictInputs.length = 1001 := by
  simp [evictInputs]

theorem evictInputs_pairs_nodup :
    (evictInputs.map (fun i => (i.1, i.2.1))).Nodup := by
  have hedef : evictInputs.map (fun i => (i.1, i.2.1))
      = (List.range 1001).map (fun i => ((i : Nat), ("" : String))) := by
    simp [evictInputs, List.map_map, Function.comp]
  rw [hedef]
  refine (List.nodup_range 1001).map ?_
  intro a b hab
  simpa using hab

theorem evictInputs_ids_nodup : (mintedIds "s" evictInputs).Nodup :=
  mintedIds_nodup "s" evictInputs evictInputs_pairs_nodup

theorem evictInputs_id0 : (mintedIds "s" evictInputs)[0]? = some "s_0_" := by
  rw [mintedIds_map]
  have he0 : evictInputs[0]? = some ((0 : Nat), ("" : String), (0 : Nat)) := by
    rw [evictInputs, List.getElem?_map, List.getElem?_range (by norm_num)]
    rfl
  rw [List.getElem?_map, he0]
  rfl

/-! ## Lemmas: session registry sweep -/

theorem sweepExpired_kept_iff (reg : Registry) (ttl now : Int)
    (sid : String) (e : MEntry) :
    (sid, e) ∈ (sweepExpired reg ttl now).1
      ↔ (sid, e) ∈ reg ∧ now - e.lastActivity ≤ ttl := by
  rw [sweepExpired]
  simp [List.mem_filter]

theorem sweepExpired_removed_iff (reg : Registry) (ttl now : Int)
    (sid : String) (e' : MEntry) :
    (sid, e') ∈ (sweepExpired reg ttl now).2
      ↔ ∃ e : MEntry, (sid, e) ∈ reg ∧ now - e.lastActivity > ttl
          ∧ e' = teardownEntry sid e := by
  rw [sweepExpired]
  simp only [List.mem_map, List.mem_filter]
  constructor
  · rintro ⟨⟨k, e⟩, ⟨hmem, hexp⟩, heq⟩
    simp only [Prod.mk.injEq] at heq
    obtain ⟨hk, he⟩ := heq
    subst hk
    exact ⟨e, hmem, by simpa using hexp, he.symm⟩
  · rintro ⟨e, hmem, hexp, he⟩
    exact ⟨(sid, e), ⟨hmem, by simpa using hexp⟩, by simp [he]⟩

theorem teardownEntry_closed (sid : String) (e : MEntry)
    (h : (e.eventStore.map Prod.fst).Nodup) :
    mapGet (teardownEntry sid e).eventStore sid = none
      ∧ (teardownEntry sid e).transportOpen = false := by
  constructor
  · exact mapGet_mapDelete_self e.eventStore sid h
  · rfl

/-! ## Claim theorems -/

/-- C10: for every stream id without an underscore, extracting the stream id
from a minted event id round-trips (`getStreamIdFromEventId ∘ generateEventId`
is the identity on the stream id); for the stream id `"a_b"`, which contains
the delimiter, the round-trip returns the proper prefix `"a"` instead, and
`replayEventsAfter` then resolves no stream: on a store holding the event
under `"a_b"` it sends no events and returns the empty stream id. -/
theorem C10_stream_id_round_trip :
    (∀ (sid : String) (t : Nat) (r : String), '_' ∉ sid.data →
      getStreamIdFromEventId (generateEventId sid t r) = sid)
    ∧ getStreamIdFromEventId (generateEventId "a_b" 0 "x") = "a"
    ∧ ("a" : String) ≠ "a_b"
    ∧ ("a" : String).data <+: ("a_b" : String).data
    ∧ replayEventsAfter [("a_b", [⟨generateEventId "a_b" 0 "x", 0⟩])]
        (generateEventId "a_b" 0 "x") = ([], "") := by
  refine ⟨?_, ?_, ?_, ?_, ?_⟩
  · exact fun sid t r h => getStreamIdFromEventId_generateEventId sid t r h
  · decide
  · decide
  · decide
  · decide

/-- C10 witness: the round-trip theorem applied to the concrete underscore-free
stream id `"s"`. -/
theorem C10_witness :
    '_' ∉ ("s" : String).data
    ∧ getStreamIdFromEventId (generateEventId "s" 5 "ab") = "s" :=
  ⟨by decide, C10_stream_id_round_trip.1 "s" 5 "ab" (by decide)⟩

/-- C7: with no configured secret `validateApiKey` passes every request; with
a secret it fails when the Authorization header is absent, and otherwise
succeeds exactly when the header, after stripping the case-insensitive bearer
scheme, is byte-equal to the secret (the equal-length test followed by the
fixed-time compare decides exactly string equality); `/health` bypasses the
gate unconditionally. -/
theorem C7_auth_gate :
    (∀ h : Option String, validateApiKey "" h = true)
    ∧ (∀ k : String, k ≠ "" → validateApiKey k none = false)
    ∧ (∀ k h : String, k ≠ "" → h ≠ "" →
        (validateApiKey k (some h) = true ↔ stripBearer h = k))
    ∧ (∀ (k : String) (h : Option String),
        apiKeyMiddleware k "/health" h = MwResult.next) := by
  refine ⟨?_, ?_, ?_, ?_⟩
  · intro h
    rfl
  · intro k hk
    simp [validateApiKey, hk]
  · intro k h hk hh
    by_cases hlen : (stripBearer h).length = k.length
    · simp [validateApiKey, hk, hh, hlen]
    · simp [validateApiKey, hk, hh, hlen]
      intro heq
      exact hlen (by rw [heq])
  · intro k h
    rfl

/-- C7 witness: the auth-gate theorem applied to the concrete secret `"k"`
and header `"Bearer k"`. -/
theorem C7_witness :
    ("k" : String) ≠ ""
    ∧ ("Bearer k" : String) ≠ ""
    ∧ (validateApiKey "k" (some "Bearer k") = true ↔ stripBearer "Bearer k" = "k")
    ∧ validateApiKey "" none = true :=
  ⟨by decide, by decide,
   C7_auth_gate.2.2.1 "k" "Bearer k" (by decide) (by decide),
   C7_auth_gate.1 none⟩

/-- C5: a POST carrying a non-initialization payload whose session id header
is missing, empty, or not bound in the registry is answered with the 400
invalid-session branch and leaves the registry unchanged — no session is
created, whatever the payload. -/
theorem C5_invalid_session_post (reg : Registry) (sessionId : Option String)
    (newSid : String) (newEntry : MEntry) (now : Int)
    (hres : optTruthy sessionId = false
        ∨ mapGet reg (sessionId.getD "") = none) :
    postStep reg sessionId false newSid newEntry now
      = (PostOutcome.reject400, reg) := by
  have hdec : postDecision reg sessionId false = .reject400 := by
    rw [postDecision]
    rcases hres with h | h
    · simp [h]
    · by_cases ht : optTruthy sessionId
      · simp [ht, h]
      · simp [ht]
  rw [postStep, hdec]

/-- C5 witness: a POST with unknown session id `"x"` against the empty
registry is rejected and creates nothing. -/
theorem C5_witness :
    mapGet ([] : Registry) "x" = none
    ∧ postStep [] (some "x") false "n" ⟨0, 0, [], true⟩ 0
        = (PostOutcome.reject400, []) :=
  ⟨rfl, C5_invalid_session_post [] (some "x") "n" ⟨0, 0, [], true⟩ 0 (Or.inr rfl)⟩

/-- C6: a DELETE against an active session succeeds, deletes the session's
event log (its stream becomes absent from the store), removes the registry
binding, and afterwards the same id is rejected with the 400 invalid-session
branch by POST (for any payload), GET and DELETE, and stays unresolvable under
any further registry operations that do not re-create that exact id. -/
theorem C6_delete_terminates (reg : Registry) (sid : String) (e : MEntry)
    (hkeys : (reg.map Prod.fst).Nodup)
    (hstore : (e.eventStore.map Prod.fst).Nodup)
    (hget : mapGet reg sid = some e) (hsid : sid ≠ "") :
    deleteStep reg (some sid)
      = (true, mapDelete reg sid, some (deleteSession e.eventStore sid))
    ∧ mapGet (deleteSession e.eventStore sid) sid = none
    ∧ mapGet (mapDelete reg sid) sid = none
    ∧ (∀ (isInit : Bool) (newSid : String) (newEntry : MEntry) (now : Int),
        postStep (mapDelete reg sid) (some sid) isInit newSid newEntry now
          = (PostOutcome.reject400, mapDelete reg sid))
    ∧ getDecision (mapDelete reg sid) (some sid) = false
    ∧ (deleteStep (mapDelete reg sid) (some sid)).1 = false
    ∧ (∀ ops : List RegOp, (∀ op ∈ ops, opCreates op ≠ some sid) →
        mapGet (applyOps (mapDelete reg sid) ops) sid = none) := by
  have htr : optTruthy (some sid) = true := by
    simp [optTruthy, hsid]
  have hgone : mapGet (mapDelete reg sid) sid = none :=
    mapGet_mapDelete_self reg sid hkeys
  refine ⟨?_, ?_, hgone, ?_, ?_, ?_, ?_⟩
  · rw [deleteStep]
    simp [htr, hget]
  · exact mapGet_mapDelete_self e.eventStore sid hstore
  · intro isInit newSid newEntry now
    have hdec : postDecision (mapDelete reg sid) (some sid) isInit
        = .reject400 := by
      rw [postDecision]
      simp [htr, hgone]
    rw [postStep, hdec]
  · rw [getDecision]
    simp [hgone]
  · rw [deleteStep]
    simp [htr, hgone]
  · intro ops hops
    exact mapGet_none_applyOps ops (mapDelete reg sid) sid hops hgone

/-- C6 witness: deleting the concrete session `"s1"` whose log holds one
event, then checking the id is gone everywhere. -/
theorem C6_witness :
    (([("s1", ⟨0, 0, [("s1", [⟨"s1_0_a", 7⟩])], true⟩)] : Registry).map
        Prod.fst).Nodup
    ∧ ((([("s1", [⟨"s1_0_a", 7⟩])] : Store)).map Prod.fst).Nodup
    ∧ mapGet ([("s1", ⟨0, 0, [("s1", [⟨"s1_0_a", 7⟩])], true⟩)] : Registry) "s1"
        = some ⟨0, 0, [("s1", [⟨"s1_0_a", 7⟩])], true⟩
    ∧ ("s1" : String) ≠ ""
    ∧ mapGet (deleteSession ([("s1", [⟨"s1_0_a", 7⟩])] : Store) "s1") "s1" = none
    ∧ getDecision (mapDelete [("s1", ⟨0, 0, [("s1", [⟨"s1_0_a", 7⟩])], true⟩)]
        "s1") (some "s1") = false := by
  refine ⟨by decide, by decide, rfl, by decide, ?_, ?_⟩
  · exact (C6_delete_terminates [("s1", ⟨0, 0, [("s1", [⟨"s1_0_a", 7⟩])], true⟩)]
      "s1" ⟨0, 0, [("s1", [⟨"s1_0_a", 7⟩])], true⟩ (by decide) (by decide) rfl
      (by decide)).2.1
  · exact (C6_delete_terminates [("s1", ⟨0, 0, [("s1", [⟨"s1_0_a", 7⟩])], true⟩)]
      "s1" ⟨0, 0, [("s1", [⟨"s1_0_a", 7⟩])], true⟩ (by decide) (by decide) rfl
      (by decide)).2.2.2.2.1

/-- C9 counterexample: `sendInvalidRequestError` — the 400 invalid-session
path — writes its response without inspecting whether headers were already
sent: invoked on a response that has already been written to, it writes a
second time, unlike the two 500 helpers, which do check. -/
theorem C9_counterexample :
    sendInvalidRequestErrorWrites [500] = [500, 400]
    ∧ handleTransportErrorWrites [500] = [500]
    ∧ sendInternalErrorWrites [500] = [500] :=
  ⟨rfl, rfl, rfl⟩

/-- C9 (amended): `handleTransportError` and `sendInternalError` check
`headersSent` and never write to an already-written response;
`sendInvalidRequestError` writes unconditionally, but `handleMcpPost` reaches
it only on the branch where nothing has been written yet, so — provided the
transport itself writes at most one response — every request sees at most one
response write. -/
theorem C9_single_write (res : ResLog) (branch : PostOutcome)
    (tW : Nat) (tThrew outerThrew : Bool)
    (hres : res ≠ []) (htW : tW ≤ 1) :
    handleTransportErrorWrites res = res
    ∧ sendInternalErrorWrites res = res
    ∧ (handleMcpPostWrites branch tW tThrew outerThrew).length ≤ 1 := by
  refine ⟨?_, ?_, ?_⟩
  · rw [handleTransportErrorWrites, if_neg (by simpa using hres)]
  · rw [sendInternalErrorWrites, if_neg (by simpa using hres)]
  · rcases branch <;> rcases tThrew <;> rcases outerThrew <;>
      interval_cases tW <;> decide

/-- C9 witness: the single-write bound at a concrete already-written response
and a concrete rejected request. -/
theorem C9_witness :
    ([200] : ResLog) ≠ [] ∧ (1 : Nat) ≤ 1
    ∧ handleTransportErrorWrites [200] = [200]
    ∧ (handleMcpPostWrites PostOutcome.reject400 1 false false).length ≤ 1 :=
  ⟨by decide, by decide,
   (C9_single_write [200] PostOutcome.reject400 1 false false (by decide)
     (by decide)).1,
   (C9_single_write [200] PostOutcome.reject400 1 false false (by decide)
     (by decide)).2.2⟩

/-- C8 counterexample: two appends to stream `"s"` that draw the same
`Date.now()` value and the same random suffix mint the identical event id
twice, so event ids are not unique within a stream. -/
theorem C8_counterexample :
    (runAppends "s" [] [(5, "ab", 0), (5, "ab", 1)]).2 = ["s_5_ab", "s_5_ab"]
    ∧ ¬ (runAppends "s" [] [(5, "ab", 0), (5, "ab", 1)]).2.Nodup := by
  constructor
  · rfl
  · decide

/-- C8 (amended): the ids minted by a sequence of appends to a stream are
exactly `mintedIds` in append order — each id depends only on that stream's
own oracle draws, so appends interleaved on other streams cannot affect them —
and they are pairwise distinct provided the `(Date.now(), random-suffix)`
pairs drawn by the appends are pairwise distinct; coinciding pairs collide. -/
theorem C8_unique_ids (sid : String) (inputs : List AppendInput)
    (hp : (inputs.map (fun i => (i.1, i.2.1))).Nodup) :
    (runAppends sid [] inputs).2 = mintedIds sid inputs
    ∧ (mintedIds sid inputs).Nodup := by
  constructor
  · cases inputs with
    | nil => rfl
    | cons i rest => rw [runAppends_run sid _ (by simp)]
  · exact mintedIds_nodup sid inputs hp

/-- C8 witness: two appends at distinct timestamps yield distinct ids. -/
theorem C8_witness :
    (([(1, "a", 0), (2, "a", 0)] : List AppendInput).map
        (fun i => (i.1, i.2.1))).Nodup
    ∧ (mintedIds "s" [(1, "a", 0), (2, "a", 0)]).Nodup :=
  ⟨by decide,
   (C8_unique_ids "s" [(1, "a", 0), (2, "a", 0)] (by decide)).2⟩

/-- C3 counterexample: with ceiling 2 and a session entry created at time 0,
requests at 1 ms, 59000 ms and 60002 ms make `checkRateLimit` answer
allow, allow, reject — the third request arrives more than 60 s after the
window start (60002 − 1 > 60000), where the spec's fixed-window limiter
resets and allows — and with no registry entry `checkRateLimit` allows
without recording the `{1, now}` counter the spec prescribes. -/
theorem C3_counterexample :
    (rlRun 2 (some ⟨0, 0⟩) [1, 59000, 60002]).1 = [true, true, false]
    ∧ (specRlRun 2 none [1, 59000, 60002]).1 = [true, true, true]
    ∧ ((60002 : Int) - 1 > 60000)
    ∧ checkRateLimit 2 none 5 = (true, none) := by
  refine ⟨by decide, by decide, by decide, rfl⟩

/-- C3 (amended): `checkRateLimit` is a sliding idle window, not the spec's
fixed window: with no registry entry it allows and records nothing; a request
more than 60 s after the last recorded request resets the counter to
`{1, now}` and is allowed; and within any 60-second span, starting from a
fresh entry, exactly the first `ceiling` requests are allowed and all later
requests of the span are rejected (so request N+1 inside the span is
rejected). -/
theorem C3_sliding_window (lim : Nat) (e : RLEntry) (now t0 tl : Int)
    (times : List Int)
    (hreset : now - e.lastRequest > 60000)
    (hspan : ∀ t ∈ times, t0 ≤ t ∧ t ≤ t0 + 60000)
    (h1 : t0 ≤ tl) (h2 : tl ≤ t0 + 60000) :
    checkRateLimit lim none now = (true, none)
    ∧ checkRateLimit lim (some e) now = (true, some ⟨1, now⟩)
    ∧ (rlRun lim (some ⟨0, tl⟩) times).1
        = (List.range times.length).map (fun i => decide (i < lim)) := by
  refine ⟨rfl, ?_, ?_⟩
  · rw [checkRateLimit]
    simp [hreset]
  · have hb := rlRun_burst lim times 0 tl t0 hspan h1 h2 (Nat.zero_le lim)
    simpa using hb

/-- C3 witness: the sliding-window theorem at ceiling 2, a stale entry last
active at 0 queried at 70000, and the in-span request times 0, 10, 20, 30. -/
theorem C3_witness :
    ((70000 : Int) - (⟨2, 0⟩ : RLEntry).lastRequest > 60000)
    ∧ (∀ t ∈ ([0, 10, 20, 30] : List Int), (0 : Int) ≤ t ∧ t ≤ 0 + 60000)
    ∧ checkRateLimit 2 (some ⟨2, 0⟩) 70000 = (true, some ⟨1, 70000⟩)
    ∧ (rlRun 2 (some ⟨0, 0⟩) [0, 10, 20, 30]).1
        = (List.range 4).map (fun i => decide (i < 2)) := by
  refine ⟨by decide, by decide, ?_, ?_⟩
  · exact (C3_sliding_window 2 ⟨2, 0⟩ 70000 0 0 [0, 10, 20, 30] (by decide)
      (by decide) (by decide) (by decide)).2.1
  · exact (C3_sliding_window 2 ⟨2, 0⟩ 70000 0 0 [0, 10, 20, 30] (by decide)
      (by decide) (by decide) (by decide)).2.2

/-- C4: the sweep keeps exactly the entries whose idle time is within the ttl
and removes exactly those with `now - lastActivityAt > ttl`, passing each
removed entry through teardown — its event log deleted and its transport
closed — before it disappears from the map; a freshly inserted entry is
retrievable immediately, and an entry whose idle time is within the ttl
survives the sweep under the same id. -/
theorem C4_sweep_expired (reg : Registry) (ttl now : Int) (sid : String)
    (e : MEntry) (hug : (e.eventStore.map Prod.fst).Nodup)
    (hget : mapGet reg sid = some e)
    (hidle : now - e.lastActivity ≤ ttl) :
    (∀ (k : String) (w : MEntry),
      (k, w) ∈ (sweepExpired reg ttl now).1
        ↔ (k, w) ∈ reg ∧ now - w.lastActivity ≤ ttl)
    ∧ (∀ (k : String) (w' : MEntry),
        (k, w') ∈ (sweepExpired reg ttl now).2
          ↔ ∃ w, (k, w) ∈ reg ∧ now - w.lastActivity > ttl
              ∧ w' = teardownEntry k w)
    ∧ mapGet (teardownEntry sid e).eventStore sid = none
    ∧ (teardownEntry sid e).transportOpen = false
    ∧ (∀ (reg₀ : Registry) (w : MEntry), mapGet (mapSet reg₀ sid w) sid = some w)
    ∧ mapGet (sweepExpired reg ttl now).1 sid = some e := by
  refine ⟨?_, ?_, ?_, rfl, ?_, ?_⟩
  · intro k w
    exact sweepExpired_kept_iff reg ttl now k w
  · intro k w'
    exact sweepExpired_removed_iff reg ttl now k w'
  · exact (teardownEntry_closed sid e hug).1
  · intro reg₀ w
    exact mapGet_mapSet_self reg₀ sid w
  · exact mapGet_filter_of_mem _ reg sid e hget (by simpa using hidle)

/-- C4 witness: a one-entry registry, touched 10 ms ago with a 1000 ms ttl,
survives the sweep; the theorem instantiated at it. -/
theorem C4_witness :
    ((([("s1", [⟨"x", 1⟩])] : Store)).map Prod.fst).Nodup
    ∧ mapGet ([("s1", ⟨0, 100, [("s1", [⟨"x", 1⟩])], true⟩)] : Registry) "s1"
        = some ⟨0, 100, [("s1", [⟨"x", 1⟩])], true⟩
    ∧ ((110 : Int) - (100 : Int) ≤ 1000)
    ∧ mapGet (sweepExpired
        [("s1", ⟨0, 100, [("s1", [⟨"x", 1⟩])], true⟩)] 1000 110).1 "s1"
        = some ⟨0, 100, [("s1", [⟨"x", 1⟩])], true⟩ := by
  refine ⟨by decide, rfl, by decide, ?_⟩
  exact (C4_sweep_expired [("s1", ⟨0, 100, [("s1", [⟨"x", 1⟩])], true⟩)] 1000 110
    "s1" ⟨0, 100, [("s1", [⟨"x", 1⟩])], true⟩ (by decide) rfl
    (by decide)).2.2.2.2.2

/-- C2: after every `storeEvent` the affected stream's buffer holds at most
1000 events; the retained buffer is exactly the most recent suffix of the
events appended so far (the oldest are evicted first); and an event id that
has been evicted never appears in any later replay of that stream — across
arbitrary further appends — as long as the minted ids stay pairwise
distinct. -/
theorem C2_bounded_buffer (sid : String) (inputs₁ inputs₂ : List AppendInput)
    (k : Nat) (idk lid : String)
    (hnd : (mintedIds sid (inputs₁ ++ inputs₂)).Nodup)
    (hkd : k < inputs₁.length - 1000)
    (hk : (mintedIds sid inputs₁)[k]? = some idk) :
    (∀ (s : Store) (sid' : String) (t : Nat) (r : String) (m : Nat),
      ((mapGet (storeEvent s sid' t r m).1 sid').getD []).length ≤ 1000)
    ∧ (∀ (sid' : String) (inputs : List AppendInput), inputs ≠ [] →
        mapGet (runAppends sid' [] inputs).1 sid'
          = some ((mintedEvents sid' inputs).drop (inputs.length - 1000)))
    ∧ idk ∉ (replayEventsAfter (runAppends sid []
        (inputs₁ ++ inputs₂)).1 lid).1.map Ev.eventId := by
  refine ⟨?_, ?_, ?_⟩
  · intro s sid' t r m
    exact storeEvent_buffer_le s sid' t r m
  · intro sid' inputs hne
    rw [runAppends_run sid' inputs hne, mapGet_singleton, if_pos rfl]
    rfl
  · exact evicted_not_in_replay sid inputs₁ inputs₂ k idk lid hnd hkd hk

/-- C2 witness: after the 1001-append eviction scenario on stream `"s"`, the
id minted by the first append (`"s_0_"`) appears in no replay, here
instantiated with the replay that starts from that very id. -/
theorem C2_witness :
    (mintedIds "s" (evictInputs ++ [])).Nodup
    ∧ (0 : Nat) < evictInputs.length - 1000
    ∧ (mintedIds "s" evictInputs)[0]? = some "s_0_"
    ∧ "s_0_" ∉ (replayEventsAfter (runAppends "s" []
        (evictInputs ++ [])).1 "s_0_").1.map Ev.eventId := by
  have h1 : (mintedIds "s" (evictInputs ++ [])).Nodup := by
    rw [List.append_nil]
    exact evictInputs_ids_nodup
  have h2 : (0 : Nat) < evictInputs.length - 1000 := by
    rw [evictInputs_length]
    decide
  exact ⟨h1, h2, evictInputs_id0,
    (C2_bounded_buffer "s" evictInputs [] 0 "s_0_" "s_0_" h1 h2
      evictInputs_id0).2.2⟩

/-- C1 counterexample: after 1001 appends to stream `"s"` the id returned by
the first append (`"s_0_"`) has been evicted; the claim requires replaying
from it to yield the events still retained — a partial window of 1000 events —
but `replayEventsAfter` sends nothing at all: it replays zero events while
1000 events are retained in the buffer. -/
theorem C1_counterexample :
    (runAppends "s" [] evictInputs).2[0]? = some "s_0_"
    ∧ (replayEventsAfter (runAppends "s" [] evictInputs).1 "s_0_").1 = []
    ∧ ((mapGet (runAppends "s" [] evictInputs).1 "s").getD []).length
        = 1000 := by
  have hnil : evictInputs ≠ [] := by
    intro hh
    have := congrArg List.length hh
    rw [evictInputs_length] at this
    simp at this
  refine ⟨?_, ?_, ?_⟩
  · rw [runAppends_run "s" evictInputs hnil]
    exact evictInputs_id0
  · have hrep := replay_run "s" evictInputs 0 "s_0_" (by decide) (by decide)
      evictInputs_ids_nodup evictInputs_id0
    rw [hrep]
    have hc : ¬ (evictInputs.length - MAX_EVENTS_PER_SESSION ≤ 0) := by
      rw [evictInputs_length]
      decide
    rw [if_neg hc]
  · rw [runAppends_run "s" evictInputs hnil, mapGet_singleton, if_pos rfl]
    rw [Option.getD_some, List.length_drop, mintedEvents_length,
      evictInputs_length]
    decide

/-- C1 (amended): replaying from the id returned by the k-th append invokes
the sink exactly once per event appended after the k-th, in append order,
when the k-th event is still retained; when the k-th event has been evicted
from the bounded buffer, replay invokes the sink on no events at all (an
empty result, not the retained partial window) and still returns the stream
id without error — provided the stream id contains no underscore and the
minted ids are pairwise distinct. -/
theorem C1_replay_after_append (sid : String) (inputs : List AppendInput)
    (k : Nat) (idk : String) (hu : '_' ∉ sid.data) (hne : sid ≠ "")
    (hnd : (mintedIds sid inputs).Nodup)
    (hk : (runAppends sid [] inputs).2[k]? = some idk) :
    replayEventsAfter (runAppends sid [] inputs).1 idk
      = (if inputs.length - 1000 ≤ k
         then (mintedEvents sid inputs).drop (k + 1) else [], sid) := by
  have hids : (runAppends sid [] inputs).2 = mintedIds sid inputs := by
    cases inputs with
    | nil => rfl
    | cons i rest => rw [runAppends_run sid _ (by simp)]
  rw [hids] at hk
  exact replay_run sid inputs k idk hu hne hnd hk

/-- C1 witness: two appends to `"s"`; replaying from the first id yields
exactly the one event appended after it. -/
theorem C1_witness :
    '_' ∉ ("s" : String).data
    ∧ ("s" : String) ≠ ""
    ∧ (mintedIds "s" [(0, "a", 7), (1, "b", 8)]).Nodup
    ∧ (runAppends "s" [] [(0, "a", 7), (1, "b", 8)]).2[0]? = some "s_0_a"
    ∧ replayEventsAfter (runAppends "s" [] [(0, "a", 7), (1, "b", 8)]).1 "s_0_a"
        = (if ([(0, "a", 7), (1, "b", 8)] : List AppendInput).length - 1000 ≤ 0
           then (mintedEvents "s" [(0, "a", 7), (1, "b", 8)]).drop 1 else [],
           "s") :=
  ⟨by decide, by decide, by decide, by decide,
   C1_replay_after_append "s" [(0, "a", 7), (1, "b", 8)] 0 "s_0_a" (by decide)
     (by decide) (by decide) (by decide)⟩

end YtDlp
